import Mathlib

/-!
Verification development for the ideas/labels persistence layer of the
ai-ideas-site repository (src/server.js).

The storage layer is embedded shallowly:
* JSON documents on disk become an inductive `JsonDoc` (parse failure,
  non-array top level, or an array of records);
* raw stored idea records (fields possibly missing or of the wrong shape)
  become `RawIdea`, with `Option` marking a field that may be absent;
* `normalizeIdea` is the read-path normalization of src/server.js;
* wall-clock reads (`new Date().toISOString()`) and `crypto.randomUUID()`
  are supplied as explicit `now : Nat` / `newId : String` parameters;
  ISO timestamp strings compare chronologically, so `Nat` stands for them;
* the Supabase backend becomes `RemoteState`: two tables held as lists of
  rows, with the snake-case column shape `DbIdea` and the bidirectional
  mapping `apiIdeaToDb` / `dbIdeaToApi`; the server-side
  `order('updated_at', descending)` is an insertion sort on the rows.
-/

/-- Chat transcript entry: `{role, text, at}` in src/server.js (the JS field
`at` is spelled `atTime` here because `at` is a Lean keyword). -/
structure ChatMsg where
  role : String
  text : String
  atTime : Nat
deriving DecidableEq

/-- A raw idea record as stored in the JSON document: optional fields model
JS fields that may be missing (`undefined`/`null`) or of the wrong shape
(`Array.isArray` false for the list fields). -/
structure RawIdea where
  id : String
  title : String
  description : String
  status : String
  label : Option String
  tags : Option (List String)
  attachments : Option (List String)
  aiChat : Option (List ChatMsg)
  createdAt : Nat
  updatedAt : Nat
deriving DecidableEq

/-- A normalized idea, the shape every read returns. -/
structure Idea where
  id : String
  title : String
  description : String
  status : String
  label : String
  tags : List String
  attachments : List String
  aiChat : List ChatMsg
  createdAt : Nat
  updatedAt : Nat
deriving DecidableEq

/-- `normalizeIdea` of src/server.js: `label: i.label || ''` and
`Array.isArray(f) ? f : []` for the three list fields. -/
def normalizeIdea (i : RawIdea) : Idea :=
  { id := i.id
    title := i.title
    description := i.description
    status := i.status
    label := i.label.getD ""
    tags := i.tags.getD []
    attachments := i.attachments.getD []
    aiChat := i.aiChat.getD []
    createdAt := i.createdAt
    updatedAt := i.updatedAt }

/-- Serialization of a normalized idea back into a stored record: every
field is present (this is what `JSON.stringify` writes). -/
def Idea.toRaw (i : Idea) : RawIdea :=
  { id := i.id
    title := i.title
    description := i.description
    status := i.status
    label := some i.label
    tags := some i.tags
    attachments := some i.attachments
    aiChat := some i.aiChat
    createdAt := i.createdAt
    updatedAt := i.updatedAt }

/-- A JSON document on disk, as far as the read path of src/server.js
distinguishes: `JSON.parse` throws (`parseError`), parses to a non-array
value (`nonArray`), or parses to an array of records. -/
inductive JsonDoc (α : Type) where
  | parseError : JsonDoc α
  | nonArray : JsonDoc α
  | array : List α → JsonDoc α
deriving DecidableEq

/-- `DEFAULT_LABELS` of src/server.js. -/
def DEFAULT_LABELS : List String := ["Agent", "Automation", "Research"]

/-- Local-store backing state: the two JSON documents
(`data/ideas.json`, `data/labels.json`). -/
structure LocalState where
  ideasDoc : JsonDoc RawIdea
  labelsDoc : JsonDoc String
deriving DecidableEq

/-- `readIdeasFile`: parse, check `Array.isArray`, normalize each record;
on any failure return `[]`. -/
def readIdeasFile (s : LocalState) : List Idea :=
  match s.ideasDoc with
  | .parseError => []
  | .nonArray => []
  | .array xs => xs.map normalizeIdea

/-- `writeIdeasFile`: overwrite the document with the serialized list. -/
def writeIdeasFile (s : LocalState) (ideas : List Idea) : LocalState :=
  { s with ideasDoc := .array (ideas.map Idea.toRaw) }

/-- `readLabelsFile`: parse, check `Array.isArray`; on any failure return
`DEFAULT_LABELS`. -/
def readLabelsFile (s : LocalState) : List String :=
  match s.labelsDoc with
  | .parseError => DEFAULT_LABELS
  | .nonArray => DEFAULT_LABELS
  | .array xs => xs

/-- `writeLabelsFile`: overwrite the document with the serialized list. -/
def writeLabelsFile (s : LocalState) (labels : List String) : LocalState :=
  { s with labelsDoc := .array labels }

/-- JS `String.prototype.trim`, modelled on the character list so that it
is structurally computable: drop whitespace from both ends. -/
def jsTrim (s : String) : String :=
  ⟨((s.data.dropWhile Char.isWhitespace).reverse.dropWhile Char.isWhitespace).reverse⟩

/-- Payload accepted by `createIdea`. `none` models an absent (or, for the
`||`-defaulted fields, falsy) JS field; `attachments` and `aiChat` are not
read from the payload by `createIdea`. -/
structure CreatePayload where
  title : String
  description : Option String
  status : Option String
  label : Option String
  tags : Option (List String)

/-- The idea object built by `createIdea` (src/server.js lines 76-88):
`title` stored as given, `description`/`label` coerced and trimmed,
`status` defaulted through `payload.status || 'new'`, `tags` kept when an
array, `attachments`/`aiChat` empty, both timestamps `now`. -/
def buildIdea (p : CreatePayload) (newId : String) (now : Nat) : Idea :=
  { id := newId
    title := p.title
    description := jsTrim (p.description.getD "")
    status := match p.status with
      | none => "new"
      | some st => if st = "" then "new" else st
    label := jsTrim (p.label.getD "")
    tags := p.tags.getD []
    attachments := []
    aiChat := []
    createdAt := now
    updatedAt := now }

/-- Partial payload accepted by `updateIdea`: `none` is a field absent from
the JS payload (`payload.f !== undefined` false). -/
structure UpdatePayload where
  title : Option String
  description : Option String
  status : Option String
  label : Option String
  tags : Option (List String)
  attachments : Option (List String)
  aiChat : Option (List ChatMsg)

/-- The empty payload `{}`. -/
def emptyPayload : UpdatePayload :=
  { title := none, description := none, status := none, label := none,
    tags := none, attachments := none, aiChat := none }

/-- The merge computed by `updateIdea` (both backends run the same merge):
present text fields are stringified and trimmed, present list fields taken
as given, absent fields kept from the stored record, `updatedAt := now`,
and the result passed through `normalizeIdea`. -/
def mergeIdea (existing : Idea) (p : UpdatePayload) (now : Nat) : Idea :=
  normalizeIdea
    { id := existing.id
      title := match p.title with
        | some t => jsTrim t
        | none => existing.title
      description := match p.description with
        | some d => jsTrim d
        | none => existing.description
      status := match p.status with
        | some st => st
        | none => existing.status
      label := some (match p.label with
        | some l => jsTrim l
        | none => existing.label)
      tags := some (match p.tags with
        | some tg => tg
        | none => existing.tags)
      attachments := some (match p.attachments with
        | some a => a
        | none => existing.attachments)
      aiChat := some (match p.aiChat with
        | some c => c
        | none => existing.aiChat)
      createdAt := existing.createdAt
      updatedAt := now }

/-- Replace the first element whose `id` is `tid` by its image under `f`,
returning the new element and list; `none` when no element matches. This
is the `findIndex` / `ideas[idx] = ...` step of the local `updateIdea`. -/
def updateFirst (tid : String) (f : Idea → Idea) : List Idea → Option (Idea × List Idea)
  | [] => none
  | i :: is =>
    if i.id = tid then
      some (f i, f i :: is)
    else
      match updateFirst tid f is with
      | none => none
      | some (m, is') => some (m, i :: is')

/-- Local `listIdeas`: the file contents, in file order. -/
def listIdeasLocal (s : LocalState) : List Idea :=
  readIdeasFile s

/-- Local `getIdea`: `readIdeasFile().find(i => i.id === id) || null`. -/
def getIdeaLocal (s : LocalState) (tid : String) : Option Idea :=
  (readIdeasFile s).find? (fun i => i.id = tid)

/-- Local `createIdea`: build the idea, `unshift` it, write the file. -/
def createIdeaLocal (s : LocalState) (p : CreatePayload) (newId : String) (now : Nat) :
    Idea × LocalState :=
  let idea := buildIdea p newId now
  (idea, writeIdeasFile s (idea :: readIdeasFile s))

/-- Local `updateIdea`: find the index; if absent return `null` without
writing; otherwise store the merged record in place and write the file. -/
def updateIdeaLocal (s : LocalState) (tid : String) (p : UpdatePayload) (now : Nat) :
    Option Idea × LocalState :=
  match updateFirst tid (fun i => mergeIdea i p now) (readIdeasFile s) with
  | none => (none, s)
  | some (m, ideas') => (some m, writeIdeasFile s ideas')

/-- Local `deleteIdea`: filter out the id; report whether anything went. -/
def deleteIdeaLocal (s : LocalState) (tid : String) : Bool × LocalState :=
  let ideas := readIdeasFile s
  let next := ideas.filter (fun i => i.id ≠ tid)
  if next.length = ideas.length then (false, s) else (true, writeIdeasFile s next)

/-- Local `listLabels`: the labels file contents. -/
def listLabelsLocal (s : LocalState) : List String :=
  readLabelsFile s

/-- Local `addLabel`: push the name when not already included
(`labels.includes(name)`), write, and return the written list. -/
def addLabelLocal (s : LocalState) (name : String) : List String × LocalState :=
  let labels := readLabelsFile s
  let labels' := if name ∈ labels then labels else labels ++ [name]
  (labels', writeLabelsFile s labels')

/-- Local `removeLabel`: filter the name out of the labels file, then map
over the ideas clearing `label` on every idea whose label equals the name
(without touching any other field), and write both files. -/
def removeLabelLocal (s : LocalState) (name : String) : List String × LocalState :=
  let next := (readLabelsFile s).filter (fun l => l ≠ name)
  let s1 := writeLabelsFile s next
  let ideas := (readIdeasFile s1).map
    (fun i => if i.label = name then { i with label := "" } else i)
  (next, writeIdeasFile s1 ideas)

/-- A row of the remote `ideas` table, in the snake-case column shape of
`apiIdeaToDb` (the schema makes every column non-null with a default, so
row fields are total). -/
structure DbIdea where
  id : String
  title : String
  description : String
  status : String
  label : String
  tags : List String
  attachments : List String
  ai_chat : List ChatMsg
  created_at : Nat
  updated_at : Nat
deriving DecidableEq

/-- `apiIdeaToDb` of src/server.js. -/
def apiIdeaToDb (i : Idea) : DbIdea :=
  { id := i.id
    title := i.title
    description := i.description
    status := i.status
    label := i.label
    tags := i.tags
    attachments := i.attachments
    ai_chat := i.aiChat
    created_at := i.createdAt
    updated_at := i.updatedAt }

/-- `dbIdeaToApi` of src/server.js: rename the columns and pass the result
through `normalizeIdea`. -/
def dbIdeaToApi (r : DbIdea) : Idea :=
  normalizeIdea
    { id := r.id
      title := r.title
      description := r.description
      status := r.status
      label := some r.label
      tags := some r.tags
      attachments := some r.attachments
      aiChat := some r.ai_chat
      createdAt := r.created_at
      updatedAt := r.updated_at }

/-- One step of sorting rows by `updated_at` descending. -/
def insertDesc (i : DbIdea) : List DbIdea → List DbIdea
  | [] => [i]
  | j :: js =>
    if j.updated_at ≤ i.updated_at then i :: j :: js else j :: insertDesc i js

/-- The server-side `order('updated_at', descending)` of the remote
`listIdeas`, embedded as an insertion sort of the rows. -/
def sortByUpdatedDesc (rows : List DbIdea) : List DbIdea :=
  rows.foldr insertDesc []

/-- One step of sorting label names ascending. -/
def insertStr (x : String) : List String → List String
  | [] => [x]
  | y :: ys => if x ≤ y then x :: y :: ys else y :: insertStr x ys

/-- The server-side `order('name', ascending)` of the remote `listLabels`,
embedded as an insertion sort of the names. -/
def sortStrings (l : List String) : List String :=
  l.foldr insertStr []

/-- Remote-store backing state: the `ideas` and `labels` tables. The
`labels` table is keyed by `name`, so its list never holds duplicates once
maintained through `addLabel`. -/
structure RemoteState where
  ideas : List DbIdea
  labels : List String
deriving DecidableEq

/-- Remote `listIdeas`: select all rows ordered by `updated_at` descending
and map each through `dbIdeaToApi`. -/
def listIdeasRemote (r : RemoteState) : List Idea :=
  (sortByUpdatedDesc r.ideas).map dbIdeaToApi

/-- Remote `getIdea`: `maybeSingle` on `id`, mapped through `dbIdeaToApi`. -/
def getIdeaRemote (r : RemoteState) (tid : String) : Option Idea :=
  (r.ideas.find? (fun row => row.id = tid)).map dbIdeaToApi

/-- Remote `createIdea`: insert the fully populated row and return the
inserted row mapped back. -/
def createIdeaRemote (r : RemoteState) (p : CreatePayload) (newId : String) (now : Nat) :
    Idea × RemoteState :=
  let idea := buildIdea p newId now
  (dbIdeaToApi (apiIdeaToDb idea), { r with ideas := r.ideas ++ [apiIdeaToDb idea] })

/-- Remote `updateIdea`: fetch the existing row (absence sentinel when it
does not exist), merge in the caller's process, write the full merged row
back over every row matching the id, and return the row mapped back. -/
def updateIdeaRemote (r : RemoteState) (tid : String) (p : UpdatePayload) (now : Nat) :
    Option Idea × RemoteState :=
  match getIdeaRemote r tid with
  | none => (none, r)
  | some existing =>
    let merged := mergeIdea existing p now
    (some (dbIdeaToApi (apiIdeaToDb merged)),
      { r with ideas := r.ideas.map (fun row => if row.id = tid then apiIdeaToDb merged else row) })

/-- Remote `deleteIdea`: delete by id with an exact count. -/
def deleteIdeaRemote (r : RemoteState) (tid : String) : Bool × RemoteState :=
  let next := r.ideas.filter (fun row => row.id ≠ tid)
  (next.length ≠ r.ideas.length, { r with ideas := next })

/-- Remote `listLabels`: select the names ordered ascending. -/
def listLabelsRemote (r : RemoteState) : List String :=
  sortStrings r.labels

/-- Remote `addLabel`: upsert on the `name` primary key (a no-op when the
name is already present), then return `listLabels()`. -/
def addLabelRemote (r : RemoteState) (name : String) : List String × RemoteState :=
  let r' : RemoteState :=
    { r with labels := if name ∈ r.labels then r.labels else r.labels ++ [name] }
  (listLabelsRemote r', r')

/-- The payload `{ ...idea, label: '' }` passed by the remote `removeLabel`
cascade to `updateIdea`: every mergeable field present, label empty. -/
def ideaClearPayload (i : Idea) : UpdatePayload :=
  { title := some i.title
    description := some i.description
    status := some i.status
    label := some ""
    tags := some i.tags
    attachments := some i.attachments
    aiChat := some i.aiChat }

/-- One iteration of the remote cascade loop: `updateIdea(idea.id,
{ ...idea, label: '' })`, keeping only the post-state. -/
def clearStep (st : RemoteState) (i : Idea) (now : Nat) : RemoteState :=
  (updateIdeaRemote st i.id (ideaClearPayload i) now).2

/-- The sequential cascade loop of the remote `removeLabel`. -/
def clearFold (todo : List Idea) (st : RemoteState) (now : Nat) : RemoteState :=
  todo.foldl (fun acc i => clearStep acc i now) st

/-- Remote `removeLabel`: delete the label row, list the ideas, filter to
those whose label equals the removed name, clear each sequentially through
`updateIdea`, and return `listLabels()`. -/
def removeLabelRemote (r : RemoteState) (name : String) (now : Nat) :
    List String × RemoteState :=
  let r1 : RemoteState := { r with labels := r.labels.filter (fun l => l ≠ name) }
  let impacted := (listIdeasRemote r1).filter (fun i => i.label = name)
  let r2 := clearFold impacted r1 now
  (listLabelsRemote r2, r2)

/-- Normalizing a serialized normalized idea gives it back. -/
theorem normalizeIdea_toRaw (i : Idea) : normalizeIdea i.toRaw = i := rfl

/-- Column-mapping round trip: `dbIdeaToApi (apiIdeaToDb i) = i`. -/
theorem dbIdeaToApi_apiIdeaToDb (i : Idea) : dbIdeaToApi (apiIdeaToDb i) = i := rfl

/-- Reading the ideas file back after a write returns the written list. -/
theorem readIdeasFile_write (s : LocalState) (l : List Idea) :
    readIdeasFile (writeIdeasFile s l) = l := by
  simp [readIdeasFile, writeIdeasFile, List.map_map, Function.comp_def, normalizeIdea_toRaw]

/-- Reading the labels file back after a write returns the written list. -/
theorem readLabelsFile_write (s : LocalState) (l : List String) :
    readLabelsFile (writeLabelsFile s l) = l := rfl

/-- Writing the ideas file leaves the labels file untouched. -/
theorem readLabelsFile_writeIdeas (s : LocalState) (l : List Idea) :
    readLabelsFile (writeIdeasFile s l) = readLabelsFile s := rfl

/-- Writing the labels file leaves the ideas file untouched. -/
theorem readIdeasFile_writeLabels (s : LocalState) (l : List String) :
    readIdeasFile (writeLabelsFile s l) = readIdeasFile s := rfl

/-- The merge keeps the stored id. -/
theorem mergeIdea_id (i : Idea) (p : UpdatePayload) (now : Nat) :
    (mergeIdea i p now).id = i.id := rfl

/-- Merging the empty payload only refreshes `updatedAt`. -/
theorem mergeIdea_empty (i : Idea) (now : Nat) :
    mergeIdea i emptyPayload now = { i with updatedAt := now } := rfl

/-- `updateFirst` misses exactly when no element has the id. -/
theorem updateFirst_of_none (tid : String) (f : Idea → Idea) (l : List Idea)
    (h : ∀ i ∈ l, i.id ≠ tid) : updateFirst tid f l = none := by
  induction l with
  | nil => rfl
  | cons j js ih =>
    have hj : ¬j.id = tid := h j (List.mem_cons_self j js)
    simp only [updateFirst, if_neg hj]
    rw [ih fun i hi => h i (List.mem_cons_of_mem _ hi)]

/-- When `find?` locates the first element with the id, `updateFirst`
replaces exactly that element, `find?` afterwards sees the replacement,
and the id at every position is unchanged. -/
theorem updateFirst_of_find? (tid : String) (f : Idea → Idea)
    (hf : ∀ x, (f x).id = x.id) (l : List Idea) (i : Idea)
    (h : l.find? (fun x => x.id = tid) = some i) :
    ∃ l', updateFirst tid f l = some (f i, l')
      ∧ l'.find? (fun x => x.id = tid) = some (f i)
      ∧ l'.map Idea.id = l.map Idea.id := by
  induction l with
  | nil => simp at h
  | cons j js ih =>
    by_cases hj : j.id = tid
    · have hji : i = j := by
        rw [List.find?_cons_of_pos _ (by simpa using hj)] at h
        exact (Option.some.inj h).symm
      subst hji
      refine ⟨f i :: js, ?_, ?_, ?_⟩
      · simp [updateFirst, hj]
      · exact List.find?_cons_of_pos _ (by simp [hf, hj])
      · simp [hf]
    · have h' : js.find? (fun x => x.id = tid) = some i := by
        rwa [List.find?_cons_of_neg _ (by simpa using hj)] at h
      obtain ⟨l', h1, h2, h3⟩ := ih h'
      refine ⟨j :: l', ?_, ?_, ?_⟩
      · simp [updateFirst, hj, h1]
      · rw [List.find?_cons_of_neg _ (by simpa using hj)]
        exact h2
      · simp [h3]

/-- `updateFirst` never moves an idea: the list of ids is unchanged. -/
theorem updateFirst_map_id (tid : String) (f : Idea → Idea)
    (hf : ∀ x, (f x).id = x.id) :
    ∀ (l : List Idea) (m : Idea) (l' : List Idea),
      updateFirst tid f l = some (m, l') → l'.map Idea.id = l.map Idea.id := by
  intro l
  induction l with
  | nil => intro m l' h; simp [updateFirst] at h
  | cons j js ih =>
    intro m l' h
    simp only [updateFirst] at h
    split at h
    · obtain ⟨rfl, rfl⟩ := Prod.mk.injEq .. ▸ Option.some.inj h
      simp [hf]
    · cases hE : updateFirst tid f js with
      | none => rw [hE] at h; cases h
      | some pair =>
        obtain ⟨m0, js'⟩ := pair
        rw [hE] at h
        obtain ⟨rfl, rfl⟩ := Prod.mk.injEq .. ▸ Option.some.inj h
        simp [ih _ _ hE]

/-- In a list whose ids are distinct, `find?` by the id of a member
returns that member. -/
theorem find?_eq_of_nodup (l : List Idea) (i : Idea)
    (hnd : (l.map Idea.id).Nodup) (hi : i ∈ l) :
    l.find? (fun x => x.id = i.id) = some i := by
  induction l with
  | nil => cases hi
  | cons j js ih =>
    rw [List.map_cons, List.nodup_cons] at hnd
    rcases List.mem_cons.mp hi with rfl | hi'
    · exact List.find?_cons_of_pos _ (by simp)
    · have hj : ¬j.id = i.id := by
        intro hEq
        exact hnd.1 (hEq ▸ List.mem_map_of_mem Idea.id hi')
      rw [List.find?_cons_of_neg _ (by simpa using hj)]
      exact ih hnd.2 hi'

/-- Replacing every row matching an id by a fresh row with that id keeps
the id at every position. -/
theorem map_id_replace (rows : List DbIdea) (tid : String) (new : DbIdea)
    (hnew : new.id = tid) :
    (rows.map (fun r => if r.id = tid then new else r)).map DbIdea.id
      = rows.map DbIdea.id := by
  induction rows with
  | nil => rfl
  | cons j js ih =>
    by_cases hj : j.id = tid <;> simp [hj, hnew, ih]

/-- After replacing every row matching an id by a fresh row with that id,
`find?` by the id returns the fresh row (provided some row matched). -/
theorem find?_replace (rows : List DbIdea) (tid : String) (new : DbIdea)
    (hnew : new.id = tid) (row0 : DbIdea)
    (h : rows.find? (fun r => r.id = tid) = some row0) :
    (rows.map (fun r => if r.id = tid then new else r)).find?
      (fun r => r.id = tid) = some new := by
  induction rows with
  | nil => simp at h
  | cons j js ih =>
    by_cases hj : j.id = tid
    · simp only [List.map_cons, if_pos hj]
      exact List.find?_cons_of_pos _ (by simpa using hnew)
    · have h' : js.find? (fun r => r.id = tid) = some row0 := by
        rwa [List.find?_cons_of_neg _ (by simpa using hj)] at h
      simp only [List.map_cons, if_neg hj]
      rw [List.find?_cons_of_neg _ (by simpa using hj)]
      exact ih h'

/-- The ideas list sorted property: every idea's `updatedAt` dominates all
later ones (the contract of `listIdeas` ordering). -/
def sortedDescIdea (l : List Idea) : Prop :=
  l.Pairwise (fun a b => b.updatedAt ≤ a.updatedAt)

/-- Row-level version of the ordering for the remote table. -/
def sortedDescDb (l : List DbIdea) : Prop :=
  l.Pairwise (fun a b => b.updated_at ≤ a.updated_at)

/-- Membership through `insertDesc`. -/
theorem mem_insertDesc {a i : DbIdea} {l : List DbIdea} :
    a ∈ insertDesc i l ↔ a = i ∨ a ∈ l := by
  induction l with
  | nil => simp [insertDesc]
  | cons j js ih =>
    simp only [insertDesc]
    split
    · simp [List.mem_cons]
    · simp only [List.mem_cons, ih]
      tauto

/-- Membership through the row sort. -/
theorem mem_sortByUpdatedDesc {a : DbIdea} {rows : List DbIdea} :
    a ∈ sortByUpdatedDesc rows ↔ a ∈ rows := by
  induction rows with
  | nil => simp [sortByUpdatedDesc]
  | cons j js ih =>
    simp only [sortByUpdatedDesc, List.foldr_cons, mem_insertDesc, List.mem_cons]
    rw [sortByUpdatedDesc] at ih
    rw [ih]

/-- `insertDesc` preserves descending sortedness. -/
theorem sortedDescDb_insertDesc (i : DbIdea) {l : List DbIdea}
    (h : sortedDescDb l) : sortedDescDb (insertDesc i l) := by
  induction l with
  | nil => simp [insertDesc, sortedDescDb]
  | cons j js ih =>
    simp only [sortedDescDb, List.pairwise_cons] at h
    simp only [insertDesc]
    split
    · rename_i hle
      simp only [sortedDescDb, List.pairwise_cons]
      constructor
      · intro x hx
        rcases List.mem_cons.mp hx with rfl | hx'
        · exact hle
        · exact le_trans (h.1 x hx') hle
      · exact And.intro h.1 h.2
    · rename_i hgt
      have hij : i.updated_at ≤ j.updated_at := le_of_lt (lt_of_not_le hgt)
      simp only [sortedDescDb, List.pairwise_cons]
      constructor
      · intro x hx
        rcases mem_insertDesc.mp hx with rfl | hx'
        · exact hij
        · exact h.1 x hx'
      · have := ih h.2
        simpa [sortedDescDb] using this

/-- The row sort is sorted by `updated_at` descending. -/
theorem sortedDescDb_sort (rows : List DbIdea) :
    sortedDescDb (sortByUpdatedDesc rows) := by
  induction rows with
  | nil => simp [sortByUpdatedDesc, sortedDescDb]
  | cons j js ih =>
    simp only [sortByUpdatedDesc, List.foldr_cons]
    exact sortedDescDb_insertDesc j ih

/-- Membership through `insertStr`. -/
theorem mem_insertStr {a x : String} {l : List String} :
    a ∈ insertStr x l ↔ a = x ∨ a ∈ l := by
  induction l with
  | nil => simp [insertStr]
  | cons y ys ih =>
    simp only [insertStr]
    split
    · simp [List.mem_cons]
    · simp only [List.mem_cons, ih]
      tauto

/-- Membership through the label sort. -/
theorem mem_sortStrings {a : String} {l : List String} :
    a ∈ sortStrings l ↔ a ∈ l := by
  induction l with
  | nil => simp [sortStrings]
  | cons y ys ih =>
    simp only [sortStrings, List.foldr_cons, mem_insertStr, List.mem_cons]
    rw [sortStrings] at ih
    rw [ih]

/-- Occurrence counts through `insertStr`. -/
theorem count_insertStr (a x : String) (l : List String) :
    (insertStr x l).count a = (x :: l).count a := by
  induction l with
  | nil => rfl
  | cons y ys ih =>
    simp only [insertStr]
    split
    · rfl
    · simp only [List.count_cons, ih]
      omega

/-- Occurrence counts through the label sort. -/
theorem count_sortStrings (a : String) (l : List String) :
    (sortStrings l).count a = l.count a := by
  induction l with
  | nil => rfl
  | cons y ys ih =>
    simp only [sortStrings, List.foldr_cons, count_insertStr, List.count_cons]
    rw [sortStrings] at ih
    rw [ih]

/-- Mapping sorted rows to the api shape keeps the ordering. -/
theorem sortedDescIdea_map {rows : List DbIdea} (h : sortedDescDb rows) :
    sortedDescIdea (rows.map dbIdeaToApi) := by
  simp only [sortedDescIdea, List.pairwise_map]
  simpa [sortedDescDb, dbIdeaToApi, normalizeIdea] using h

/-- Every row of the state carrying this id has been cleared: empty label
and `updated_at` stamped with the cascade's clock. -/
def clearedRow (st : RemoteState) (tid : String) (now : Nat) : Prop :=
  ∀ row ∈ st.ideas, row.id = tid → row.label = "" ∧ row.updated_at = now

/-- What one cascade iteration does to the rows: nothing when no row has
the id, otherwise every row with the id is replaced by a single fresh row
with that id, an empty label, and the fresh timestamp. -/
theorem clearStep_ideas (st : RemoteState) (i : Idea) (now : Nat) :
    ((clearStep st i now).ideas = st.ideas ∧ ∀ r ∈ st.ideas, r.id ≠ i.id)
    ∨ ∃ new : DbIdea, new.id = i.id ∧ new.label = "" ∧ new.updated_at = now ∧
        (clearStep st i now).ideas
          = st.ideas.map (fun r => if r.id = i.id then new else r) := by
  simp only [clearStep, updateIdeaRemote]
  cases h : getIdeaRemote st i.id with
  | none =>
    left
    refine ⟨rfl, ?_⟩
    simp only [getIdeaRemote, Option.map_eq_none'] at h
    intro r hr hEq
    have := List.find?_eq_none.mp h r hr
    simp [hEq] at this
  | some ex =>
    right
    obtain ⟨row0, hfind, hex⟩ := Option.map_eq_some'.mp h
    have hrow0 : row0.id = i.id := by
      have := List.find?_some hfind
      simpa using this
    refine ⟨apiIdeaToDb (mergeIdea ex (ideaClearPayload i) now), ?_, ?_, ?_, rfl⟩
    · show (mergeIdea ex (ideaClearPayload i) now).id = i.id
      rw [mergeIdea_id]
      rw [← hex]
      show row0.id = i.id
      exact hrow0
    · show jsTrim "" = ""
      decide
    · rfl

/-- One cascade iteration does not touch the labels table. -/
theorem clearStep_labels (st : RemoteState) (i : Idea) (now : Nat) :
    (clearStep st i now).labels = st.labels := by
  simp only [clearStep, updateIdeaRemote]
  cases h : getIdeaRemote st i.id <;> rfl

/-- One cascade iteration keeps the id at every row position. -/
theorem clearStep_map_id (st : RemoteState) (i : Idea) (now : Nat) :
    (clearStep st i now).ideas.map DbIdea.id = st.ideas.map DbIdea.id := by
  rcases clearStep_ideas st i now with ⟨hEq, _⟩ | ⟨new, hid, _, _, hEq⟩
  · rw [hEq]
  · rw [hEq]
    exact map_id_replace st.ideas i.id new hid

/-- After one cascade iteration for an idea, every row with that idea's id
is cleared. -/
theorem clearStep_self (st : RemoteState) (i : Idea) (now : Nat) :
    clearedRow (clearStep st i now) i.id now := by
  rcases clearStep_ideas st i now with ⟨hEq, hnone⟩ | ⟨new, hid, hlab, hupd, hEq⟩
  · intro row hrow hrid
    rw [hEq] at hrow
    exact absurd hrid (hnone row hrow)
  · intro row hrow hrid
    rw [hEq] at hrow
    obtain ⟨r, hr, rfl⟩ := List.mem_map.mp hrow
    by_cases hc : r.id = i.id
    · simp only [if_pos hc]
      exact ⟨hlab, hupd⟩
    · simp only [if_neg hc] at hrid ⊢
      exact absurd hrid hc

/-- A cascade iteration for a different idea preserves clearedness. -/
theorem clearStep_other (st : RemoteState) (i : Idea) (now : Nat)
    (tid : String) (hne : tid ≠ i.id) (h : clearedRow st tid now) :
    clearedRow (clearStep st i now) tid now := by
  rcases clearStep_ideas st i now with ⟨hEq, _⟩ | ⟨new, hid, hlab, hupd, hEq⟩
  · rw [clearedRow, hEq]
    exact h
  · intro row hrow hrid
    rw [hEq] at hrow
    obtain ⟨r, hr, rfl⟩ := List.mem_map.mp hrow
    by_cases hc : r.id = i.id
    · simp only [if_pos hc] at hrid
      exact absurd (hrid.symm.trans hid) hne
    · simp only [if_neg hc] at hrid ⊢
      exact h r hr hrid

/-- Unfolding one iteration of the cascade loop. -/
theorem clearFold_cons (x : Idea) (rest : List Idea) (st : RemoteState) (now : Nat) :
    clearFold (x :: rest) st now = clearFold rest (clearStep st x now) now := rfl

/-- The cascade loop does not touch the labels table. -/
theorem clearFold_labels (todo : List Idea) (st : RemoteState) (now : Nat) :
    (clearFold todo st now).labels = st.labels := by
  induction todo generalizing st with
  | nil => rfl
  | cons x rest ih =>
    rw [clearFold_cons, ih, clearStep_labels]

/-- The cascade loop keeps the id at every row position. -/
theorem clearFold_map_id (todo : List Idea) (st : RemoteState) (now : Nat) :
    (clearFold todo st now).ideas.map DbIdea.id = st.ideas.map DbIdea.id := by
  induction todo generalizing st with
  | nil => rfl
  | cons x rest ih =>
    rw [clearFold_cons, ih, clearStep_map_id]

/-- Clearedness is preserved by a cascade over ideas with other ids. -/
theorem clearFold_keep (todo : List Idea) (st : RemoteState) (now : Nat)
    (tid : String) (h : clearedRow st tid now)
    (hall : ∀ y ∈ todo, y.id ≠ tid) :
    clearedRow (clearFold todo st now) tid now := by
  induction todo generalizing st with
  | nil => exact h
  | cons x rest ih =>
    rw [clearFold_cons]
    refine ih (clearStep st x now)
      (clearStep_other st x now tid (fun hEq => (hall x (List.mem_cons_self x rest)) hEq.symm) h)
      (fun y hy => hall y (List.mem_cons_of_mem _ hy))

/-- After the cascade loop runs over a list containing an idea with this
id, every row with the id is cleared. -/
theorem clearFold_mem (todo : List Idea) (st : RemoteState) (now : Nat)
    (tid : String) (htid : tid ∈ todo.map Idea.id) :
    clearedRow (clearFold todo st now) tid now := by
  induction todo generalizing st with
  | nil => simp at htid
  | cons x rest ih =>
    rw [clearFold_cons]
    by_cases hrest : tid ∈ rest.map Idea.id
    · exact ih (clearStep st x now) hrest
    · have hx : tid = x.id := by
        rcases (by simpa using htid : tid = x.id ∨ ∃ a ∈ rest, a.id = tid) with h | ⟨a, ha, haid⟩
        · exact h
        · exact absurd (haid ▸ List.mem_map_of_mem Idea.id ha) hrest
      subst hx
      refine clearFold_keep rest (clearStep st x now) now x.id (clearStep_self st x now) ?_
      intro y hy hEq
      exact hrest (hEq ▸ List.mem_map_of_mem Idea.id hy)

/-- Trimming the empty string gives the empty string. -/
theorem jsTrim_empty : jsTrim "" = "" := by decide

/-- The merge stamps `updatedAt` with the supplied clock. -/
theorem mergeIdea_updatedAt (i : Idea) (p : UpdatePayload) (now : Nat) :
    (mergeIdea i p now).updatedAt = now := rfl

/-- The element returned by `updateFirst` is the image of a stored one. -/
theorem updateFirst_result (tid : String) (f : Idea → Idea) :
    ∀ (l : List Idea) (m : Idea) (l' : List Idea),
      updateFirst tid f l = some (m, l') → ∃ x ∈ l, m = f x := by
  intro l
  induction l with
  | nil => intro m l' h; simp [updateFirst] at h
  | cons j js ih =>
    intro m l' h
    simp only [updateFirst] at h
    split at h
    · obtain ⟨rfl, rfl⟩ := Prod.mk.injEq .. ▸ Option.some.inj h
      exact ⟨j, List.mem_cons_self j js, rfl⟩
    · cases hE : updateFirst tid f js with
      | none => rw [hE] at h; cases h
      | some pair =>
        obtain ⟨m0, js'⟩ := pair
        rw [hE] at h
        obtain ⟨rfl, rfl⟩ := Prod.mk.injEq .. ▸ Option.some.inj h
        obtain ⟨x, hx, hm⟩ := ih _ _ hE
        exact ⟨x, List.mem_cons_of_mem _ hx, hm⟩

/-- A create payload holding only a title. -/
def onlyTitle (t : String) : CreatePayload :=
  { title := t, description := none, status := none, label := none, tags := none }

/-- Sample idea used to instantiate the claims on concrete stores. -/
def cIdea : Idea :=
  { id := "a1", title := "T", description := "", status := "new", label := "Growth",
    tags := [], attachments := [], aiChat := [], createdAt := 0, updatedAt := 0 }

/-- Sample local store: one idea labelled `Growth`, one label `Growth`. -/
def cLocal : LocalState :=
  { ideasDoc := .array [cIdea.toRaw], labelsDoc := .array ["Growth"] }

/-- Sample remote store matching `cLocal`. -/
def cRemote : RemoteState :=
  { ideas := [apiIdeaToDb cIdea], labels := ["Growth"] }

/-- C5: `createIdea` with a payload containing only a non-empty title
returns an idea with status `"new"`, empty label, empty tags, attachments
and chat transcript, a non-empty id, and `createdAt = updatedAt`, and the
remote backend returns the same record. -/
theorem createIdea_defaults (s : LocalState) (r : RemoteState) (t newId : String)
    (now : Nat) (ht : t ≠ "") (hid : newId ≠ "") :
    (createIdeaLocal s (onlyTitle t) newId now).1.status = "new"
    ∧ (createIdeaLocal s (onlyTitle t) newId now).1.label = ""
    ∧ (createIdeaLocal s (onlyTitle t) newId now).1.tags = []
    ∧ (createIdeaLocal s (onlyTitle t) newId now).1.attachments = []
    ∧ (createIdeaLocal s (onlyTitle t) newId now).1.aiChat = []
    ∧ (createIdeaLocal s (onlyTitle t) newId now).1.id ≠ ""
    ∧ (createIdeaLocal s (onlyTitle t) newId now).1.createdAt
        = (createIdeaLocal s (onlyTitle t) newId now).1.updatedAt
    ∧ (createIdeaRemote r (onlyTitle t) newId now).1
        = (createIdeaLocal s (onlyTitle t) newId now).1 := by
  refine ⟨rfl, ?_, rfl, rfl, rfl, hid, rfl, rfl⟩
  show jsTrim ((none : Option String).getD "") = ""
  exact jsTrim_empty

/-- C5 witness. -/
theorem createIdea_defaults_witness :
    (createIdeaLocal cLocal (onlyTitle "Ship v2") "u1" 3).1.status = "new"
    ∧ (createIdeaLocal cLocal (onlyTitle "Ship v2") "u1" 3).1.label = ""
    ∧ (createIdeaLocal cLocal (onlyTitle "Ship v2") "u1" 3).1.tags = []
    ∧ (createIdeaLocal cLocal (onlyTitle "Ship v2") "u1" 3).1.attachments = []
    ∧ (createIdeaLocal cLocal (onlyTitle "Ship v2") "u1" 3).1.aiChat = []
    ∧ (createIdeaLocal cLocal (onlyTitle "Ship v2") "u1" 3).1.id ≠ ""
    ∧ (createIdeaLocal cLocal (onlyTitle "Ship v2") "u1" 3).1.createdAt
        = (createIdeaLocal cLocal (onlyTitle "Ship v2") "u1" 3).1.updatedAt
    ∧ (createIdeaRemote cRemote (onlyTitle "Ship v2") "u1" 3).1
        = (createIdeaLocal cLocal (onlyTitle "Ship v2") "u1" 3).1 :=
  createIdea_defaults cLocal cRemote "Ship v2" "u1" 3 (by decide) (by decide)

/-- C8: when the local store's documents fail to parse or hold a
non-sequence value, the read path does not raise: `listIdeas` returns `[]`
and `listLabels` returns the default label set. -/
theorem localStore_malformed_reads (s : LocalState)
    (hi : s.ideasDoc = JsonDoc.parseError ∨ s.ideasDoc = JsonDoc.nonArray)
    (hl : s.labelsDoc = JsonDoc.parseError ∨ s.labelsDoc = JsonDoc.nonArray) :
    listIdeasLocal s = [] ∧ listLabelsLocal s = DEFAULT_LABELS := by
  constructor
  · rcases hi with h | h <;> simp [listIdeasLocal, readIdeasFile, h]
  · rcases hl with h | h <;> simp [listLabelsLocal, readLabelsFile, h]

/-- C8 witness: a store whose ideas document fails to parse and whose
labels document parses to a non-sequence value. -/
theorem localStore_malformed_reads_witness :
    listIdeasLocal { ideasDoc := .parseError, labelsDoc := .nonArray } = []
    ∧ listLabelsLocal { ideasDoc := .parseError, labelsDoc := .nonArray }
        = DEFAULT_LABELS :=
  localStore_malformed_reads _ (Or.inl rfl) (Or.inr rfl)

/-- C7: on an id absent from the store, `getIdea` and `updateIdea` return
the absence sentinel in both backends, and `updateIdea` leaves the store
unchanged. -/
theorem notFound_sentinel (s : LocalState) (r : RemoteState) (tid : String)
    (p q : UpdatePayload) (now m : Nat)
    (hs : ∀ i ∈ readIdeasFile s, i.id ≠ tid)
    (hr : ∀ row ∈ r.ideas, row.id ≠ tid) :
    getIdeaLocal s tid = none
    ∧ updateIdeaLocal s tid p now = (none, s)
    ∧ getIdeaRemote r tid = none
    ∧ updateIdeaRemote r tid q m = (none, r) := by
  have hfl : (readIdeasFile s).find? (fun i => i.id = tid) = none :=
    List.find?_eq_none.mpr (fun x hx => by simpa using hs x hx)
  have hfr : r.ideas.find? (fun row => row.id = tid) = none :=
    List.find?_eq_none.mpr (fun x hx => by simpa using hr x hx)
  refine ⟨hfl, ?_, ?_, ?_⟩
  · simp only [updateIdeaLocal, updateFirst_of_none tid _ _ hs]
  · simp only [getIdeaRemote, hfr, Option.map_none']
  · simp only [updateIdeaRemote, getIdeaRemote, hfr, Option.map_none']

/-- C7 witness at an id not present in the sample stores. -/
theorem notFound_sentinel_witness :
    getIdeaLocal cLocal "zzz" = none
    ∧ updateIdeaLocal cLocal "zzz" emptyPayload 9 = (none, cLocal)
    ∧ getIdeaRemote cRemote "zzz" = none
    ∧ updateIdeaRemote cRemote "zzz" emptyPayload 9 = (none, cRemote) :=
  notFound_sentinel cLocal cRemote "zzz" emptyPayload emptyPayload 9 9
    (by decide) (by decide)

/-- Unfolded form of the local `addLabel`. -/
theorem addLabelLocal_eq (s : LocalState) (name : String) :
    addLabelLocal s name
      = ((if name ∈ readLabelsFile s then readLabelsFile s
          else readLabelsFile s ++ [name]),
         writeLabelsFile s (if name ∈ readLabelsFile s then readLabelsFile s
          else readLabelsFile s ++ [name])) := rfl

/-- Unfolded form of the remote `addLabel`. -/
theorem addLabelRemote_eq (r : RemoteState) (name : String) :
    addLabelRemote r name
      = (sortStrings (if name ∈ r.labels then r.labels else r.labels ++ [name]),
         { r with labels := if name ∈ r.labels then r.labels
            else r.labels ++ [name] }) := rfl

/-- C6: `addLabel` is idempotent: starting from a label set holding the
name at most once, two successive calls yield a set holding it exactly
once, and the second call returns the same set as the first — in both
backends. -/
theorem addLabel_idempotent (s : LocalState) (r : RemoteState) (name : String)
    (hsc : (readLabelsFile s).count name ≤ 1)
    (hrc : r.labels.count name ≤ 1) :
    (addLabelLocal (addLabelLocal s name).2 name).1 = (addLabelLocal s name).1
    ∧ ((addLabelLocal (addLabelLocal s name).2 name).1).count name = 1
    ∧ (addLabelRemote (addLabelRemote r name).2 name).1 = (addLabelRemote r name).1
    ∧ ((addLabelRemote (addLabelRemote r name).2 name).1).count name = 1 := by
  have hmem : ∀ (l : List String),
      name ∈ (if name ∈ l then l else l ++ [name]) := by
    intro l
    by_cases h : name ∈ l
    · simpa [h] using h
    · simp [h]
  have hcount : ∀ (l : List String), l.count name ≤ 1 →
      ((if name ∈ l then l else l ++ [name]) : List String).count name = 1 := by
    intro l hl
    by_cases h : name ∈ l
    · have := List.count_pos_iff.mpr h
      simp only [if_pos h]
      omega
    · have := List.count_eq_zero.mpr h
      simp [if_neg h, this]
  have e2 : readLabelsFile (addLabelLocal s name).2
      = (if name ∈ readLabelsFile s then readLabelsFile s
         else readLabelsFile s ++ [name]) := by
    rw [addLabelLocal_eq]
    exact readLabelsFile_write s _
  have e3 : (addLabelLocal (addLabelLocal s name).2 name).1
      = (if name ∈ readLabelsFile s then readLabelsFile s
         else readLabelsFile s ++ [name]) := by
    rw [addLabelLocal_eq, e2, if_pos (hmem (readLabelsFile s))]
  have f2 : ((addLabelRemote r name).2).labels
      = (if name ∈ r.labels then r.labels else r.labels ++ [name]) := by
    rw [addLabelRemote_eq]
  have f3 : (addLabelRemote (addLabelRemote r name).2 name).1
      = sortStrings (if name ∈ r.labels then r.labels else r.labels ++ [name]) := by
    rw [addLabelRemote_eq, f2, if_pos (hmem r.labels)]
  refine ⟨?_, ?_, ?_, ?_⟩
  · rw [e3, addLabelLocal_eq]
  · rw [e3]
    exact hcount (readLabelsFile s) hsc
  · rw [f3, addLabelRemote_eq]
  · rw [f3, count_sortStrings]
    exact hcount r.labels hrc

/-- C6 witness: adding a fresh name twice to the sample stores. -/
theorem addLabel_idempotent_witness :
    (addLabelLocal (addLabelLocal cLocal "Team").2 "Team").1
        = (addLabelLocal cLocal "Team").1
    ∧ ((addLabelLocal (addLabelLocal cLocal "Team").2 "Team").1).count "Team" = 1
    ∧ (addLabelRemote (addLabelRemote cRemote "Team").2 "Team").1
        = (addLabelRemote cRemote "Team").1
    ∧ ((addLabelRemote (addLabelRemote cRemote "Team").2 "Team").1).count "Team" = 1 :=
  addLabel_idempotent cLocal cRemote "Team" (by decide) (by decide)

/-- C4: `updateIdea(id, {})` changes only `updatedAt`: the returned record
and the record read back afterwards agree with the pre-update record on
every field but `updatedAt`, in both backends. -/
theorem updateIdea_empty_frame (s : LocalState) (r : RemoteState) (tid : String)
    (now : Nat) (i j : Idea)
    (hl : getIdeaLocal s tid = some i)
    (hrm : getIdeaRemote r tid = some j) :
    (updateIdeaLocal s tid emptyPayload now).1 = some { i with updatedAt := now }
    ∧ getIdeaLocal (updateIdeaLocal s tid emptyPayload now).2 tid
        = some { i with updatedAt := now }
    ∧ (updateIdeaRemote r tid emptyPayload now).1 = some { j with updatedAt := now }
    ∧ getIdeaRemote (updateIdeaRemote r tid emptyPayload now).2 tid
        = some { j with updatedAt := now } := by
  have hf : ∀ x : Idea, ((fun y => mergeIdea y emptyPayload now) x).id = x.id :=
    fun x => mergeIdea_id x emptyPayload now
  have hl' : (readIdeasFile s).find? (fun x => x.id = tid) = some i := hl
  obtain ⟨l', h1, h2, h3⟩ :=
    updateFirst_of_find? tid (fun y => mergeIdea y emptyPayload now) hf
      (readIdeasFile s) i hl'
  obtain ⟨row0, hfind, hex⟩ := Option.map_eq_some'.mp hrm
  have hrow0 : row0.id = tid := by simpa using List.find?_some hfind
  have hjid : j.id = tid := by
    rw [← hex]
    exact hrow0
  have hnew : (apiIdeaToDb (mergeIdea j emptyPayload now)).id = tid := by
    show (mergeIdea j emptyPayload now).id = tid
    rw [mergeIdea_id]
    exact hjid
  refine ⟨?_, ?_, ?_, ?_⟩
  · simp only [updateIdeaLocal, h1]
    rw [mergeIdea_empty]
  · simp only [updateIdeaLocal, h1, getIdeaLocal, readIdeasFile_write]
    rw [h2, mergeIdea_empty]
  · simp only [updateIdeaRemote, hrm, dbIdeaToApi_apiIdeaToDb, mergeIdea_empty]
  · simp only [updateIdeaRemote, hrm]
    show Option.map dbIdeaToApi _ = _
    rw [find?_replace r.ideas tid (apiIdeaToDb (mergeIdea j emptyPayload now))
      hnew row0 hfind]
    rw [Option.map_some', dbIdeaToApi_apiIdeaToDb, mergeIdea_empty]

/-- C4 witness on the sample stores. -/
theorem updateIdea_empty_frame_witness :
    (updateIdeaLocal cLocal "a1" emptyPayload 7).1 = some { cIdea with updatedAt := 7 }
    ∧ getIdeaLocal (updateIdeaLocal cLocal "a1" emptyPayload 7).2 "a1"
        = some { cIdea with updatedAt := 7 }
    ∧ (updateIdeaRemote cRemote "a1" emptyPayload 7).1
        = some { cIdea with updatedAt := 7 }
    ∧ getIdeaRemote (updateIdeaRemote cRemote "a1" emptyPayload 7).2 "a1"
        = some { cIdea with updatedAt := 7 } :=
  updateIdea_empty_frame cLocal cRemote "a1" 7 cIdea cIdea (by decide) (by decide)

/-- Unfolded post-state of the local `removeLabel`. -/
theorem removeLabelLocal_snd (s : LocalState) (name : String) :
    (removeLabelLocal s name).2
      = writeIdeasFile (writeLabelsFile s ((readLabelsFile s).filter (fun l => l ≠ name)))
          ((readIdeasFile s).map
            (fun i => if i.label = name then { i with label := "" } else i)) := rfl

/-- The local `removeLabel` returns the filtered label list. -/
theorem removeLabelLocal_fst (s : LocalState) (name : String) :
    (removeLabelLocal s name).1 = (readLabelsFile s).filter (fun l => l ≠ name) := rfl

/-- Unfolded post-state of the remote `removeLabel`. -/
theorem removeLabelRemote_snd (r : RemoteState) (name : String) (now : Nat) :
    (removeLabelRemote r name now).2
      = clearFold
          ((listIdeasRemote { r with labels := r.labels.filter (fun l => l ≠ name) }).filter
            (fun i => i.label = name))
          { r with labels := r.labels.filter (fun l => l ≠ name) } now := rfl

/-- The remote `removeLabel` returns `listLabels()` of its post-state. -/
theorem removeLabelRemote_fst (r : RemoteState) (name : String) (now : Nat) :
    (removeLabelRemote r name now).1
      = listLabelsRemote (removeLabelRemote r name now).2 := rfl

/-- After the remote cascade, `getIdea` on an impacted idea's id returns a
row whose label is empty and whose `updated_at` is the cascade's clock. -/
theorem removeLabelRemote_getIdea (r : RemoteState) (L : String) (now : Nat)
    (j : DbIdea) (hj : j ∈ r.ideas) (hjl : j.label = L) :
    ∃ row2 : DbIdea,
      getIdeaRemote (removeLabelRemote r L now).2 j.id = some (dbIdeaToApi row2)
      ∧ row2.label = "" ∧ row2.updated_at = now := by
  rw [removeLabelRemote_snd]
  have hmemsort : j ∈ sortByUpdatedDesc r.ideas := mem_sortByUpdatedDesc.mpr hj
  have hapi : dbIdeaToApi j
      ∈ listIdeasRemote { r with labels := r.labels.filter (fun l => l ≠ L) } :=
    List.mem_map_of_mem dbIdeaToApi hmemsort
  have hfilter : dbIdeaToApi j
      ∈ (listIdeasRemote { r with labels := r.labels.filter (fun l => l ≠ L) }).filter
          (fun i => i.label = L) := by
    refine List.mem_filter.mpr ⟨hapi, ?_⟩
    have : (dbIdeaToApi j).label = L := hjl
    simp [this]
  have hids : j.id
      ∈ (((listIdeasRemote { r with labels := r.labels.filter (fun l => l ≠ L) }).filter
          (fun i => i.label = L)).map Idea.id) :=
    List.mem_map_of_mem Idea.id hfilter
  have hcleared := clearFold_mem _
    { r with labels := r.labels.filter (fun l => l ≠ L) } now j.id hids
  have hidsfold : j.id
      ∈ (clearFold
          ((listIdeasRemote { r with labels := r.labels.filter (fun l => l ≠ L) }).filter
            (fun i => i.label = L))
          { r with labels := r.labels.filter (fun l => l ≠ L) } now).ideas.map DbIdea.id := by
    rw [clearFold_map_id]
    exact List.mem_map_of_mem DbIdea.id hj
  obtain ⟨row', hrow'mem, hrow'id⟩ := List.mem_map.mp hidsfold
  have hfindS : ((clearFold
      ((listIdeasRemote { r with labels := r.labels.filter (fun l => l ≠ L) }).filter
        (fun i => i.label = L))
      { r with labels := r.labels.filter (fun l => l ≠ L) } now).ideas.find?
        (fun row => row.id = j.id)).isSome :=
    List.find?_isSome.mpr ⟨row', hrow'mem, by simpa using hrow'id⟩
  obtain ⟨row2, hfind2⟩ := Option.isSome_iff_exists.mp hfindS
  have hrow2id : row2.id = j.id := by simpa using List.find?_some hfind2
  have hrow2mem := List.mem_of_find?_eq_some hfind2
  have hc := hcleared row2 hrow2mem hrow2id
  refine ⟨row2, ?_, hc.1, hc.2⟩
  simp only [getIdeaRemote, hfind2, Option.map_some']

/-- After the remote `removeLabel`, the removed name is gone from the
label listing. -/
theorem removeLabelRemote_labels_absent (r : RemoteState) (name : String) (now : Nat) :
    name ∉ listLabelsRemote (removeLabelRemote r name now).2 := by
  rw [removeLabelRemote_snd]
  intro hmem
  simp only [listLabelsRemote, mem_sortStrings, clearFold_labels] at hmem
  have : name ∈ r.labels.filter (fun l => l ≠ name) := hmem
  simp at this

/-- C1: after `removeLabel(L)`, every idea whose label was `L` reads back
with an empty label and `L` is absent from `listLabels()`, in both the
local backend (ids assumed distinct) and the remote backend. -/
theorem removeLabel_cascade (s : LocalState) (r : RemoteState) (L : String)
    (i : Idea) (j : DbIdea) (now : Nat)
    (hnd : ((readIdeasFile s).map Idea.id).Nodup)
    (hi : i ∈ readIdeasFile s) (hil : i.label = L)
    (hj : j ∈ r.ideas) (hjl : j.label = L) :
    getIdeaLocal (removeLabelLocal s L).2 i.id = some { i with label := "" }
    ∧ L ∉ listLabelsLocal (removeLabelLocal s L).2
    ∧ (∃ q : Idea, getIdeaRemote (removeLabelRemote r L now).2 j.id = some q
        ∧ q.label = "")
    ∧ L ∉ listLabelsRemote (removeLabelRemote r L now).2 := by
  refine ⟨?_, ?_, ?_, removeLabelRemote_labels_absent r L now⟩
  · rw [removeLabelLocal_snd]
    simp only [getIdeaLocal, readIdeasFile_write]
    rw [List.find?_map]
    have hpred : ((fun x : Idea => decide (x.id = i.id))
        ∘ (fun y : Idea => if y.label = L then { y with label := "" } else y))
        = (fun x : Idea => decide (x.id = i.id)) := by
      funext x
      by_cases h : x.label = L <;> simp [Function.comp, h]
    rw [hpred, find?_eq_of_nodup (readIdeasFile s) i hnd hi, Option.map_some']
    rw [if_pos hil]
  · rw [removeLabelLocal_snd]
    simp only [listLabelsLocal, readLabelsFile_writeIdeas, readLabelsFile_write]
    simp
  · obtain ⟨row2, hget, hlab, _⟩ := removeLabelRemote_getIdea r L now j hj hjl
    exact ⟨dbIdeaToApi row2, hget, hlab⟩

/-- C1 witness on the sample stores. -/
theorem removeLabel_cascade_witness :
    getIdeaLocal (removeLabelLocal cLocal "Growth").2 "a1"
        = some { cIdea with label := "" }
    ∧ "Growth" ∉ listLabelsLocal (removeLabelLocal cLocal "Growth").2
    ∧ (∃ q : Idea,
        getIdeaRemote (removeLabelRemote cRemote "Growth" 5).2 "a1" = some q
        ∧ q.label = "")
    ∧ "Growth" ∉ listLabelsRemote (removeLabelRemote cRemote "Growth" 5).2 :=
  removeLabel_cascade cLocal cRemote "Growth" cIdea (apiIdeaToDb cIdea) 5
    (by decide) (by decide) rfl (by decide) rfl

/-- An empty local store as initialized on process start. -/
def eLocal : LocalState :=
  { ideasDoc := .array [], labelsDoc := .array DEFAULT_LABELS }

/-- Store after creating idea `A` at time 0. -/
def sA : LocalState := (createIdeaLocal eLocal (onlyTitle "A") "id-a" 0).2

/-- Store after additionally creating idea `B` at time 1. -/
def sB : LocalState := (createIdeaLocal sA (onlyTitle "B") "id-b" 1).2

/-- Store after additionally updating idea `A` at time 2. -/
def sU : LocalState := (updateIdeaLocal sB "id-a" emptyPayload 2).2

/-- C2 counterexample: in the local backend, after creating `A` then `B`
and then updating `A` (so `A` has the largest `updatedAt`), `listIdeas`
still returns `B` first — the result is not ordered by `updatedAt`
descending and the freshly updated idea is not first. -/
theorem listIdeas_order_counterexample :
    ¬ sortedDescIdea (listIdeasLocal sU)
    ∧ (updateIdeaLocal sB "id-a" emptyPayload 2).1
        = some { buildIdea (onlyTitle "A") "id-a" 0 with updatedAt := 2 }
    ∧ (listIdeasLocal sU).head?
        ≠ some { buildIdea (onlyTitle "A") "id-a" 0 with updatedAt := 2 } := by
  have hlist : listIdeasLocal sU
      = [buildIdea (onlyTitle "B") "id-b" 1,
         { buildIdea (onlyTitle "A") "id-a" 0 with updatedAt := 2 }] := by decide
  refine ⟨?_, by decide, by decide⟩
  intro h
  rw [hlist] at h
  simp only [sortedDescIdea, List.pairwise_cons] at h
  exact absurd (h.1 _ (List.mem_cons_self _ _)) (by decide)

/-- C2 amended: the remote backend returns ideas sorted by `updatedAt`
descending, while the local backend returns the file order: `createIdea`
prepends the new idea, and `updateIdea` leaves every idea at its existing
position (the id sequence is unchanged), so after an update the local
order need not be `updatedAt`-descending. -/
theorem listIdeas_order_amended (r : RemoteState) (s : LocalState)
    (p : CreatePayload) (newId tid : String) (q : UpdatePayload)
    (now now' : Nat) (m : Idea) :
    sortedDescIdea (listIdeasRemote r)
    ∧ listIdeasLocal (createIdeaLocal s p newId now).2
        = buildIdea p newId now :: listIdeasLocal s
    ∧ ((updateIdeaLocal s tid q now').1 = some m →
        (listIdeasLocal (updateIdeaLocal s tid q now').2).map Idea.id
          = (listIdeasLocal s).map Idea.id) := by
  refine ⟨sortedDescIdea_map (sortedDescDb_sort r.ideas), ?_, ?_⟩
  · simp only [listIdeasLocal, createIdeaLocal, readIdeasFile_write]
  · intro hm
    cases hE : updateFirst tid (fun i => mergeIdea i q now') (readIdeasFile s) with
    | none =>
      simp only [updateIdeaLocal, hE] at hm
      exact Option.noConfusion hm
    | some pair =>
      obtain ⟨m0, l'⟩ := pair
      simp only [updateIdeaLocal, hE, listIdeasLocal, readIdeasFile_write]
      exact updateFirst_map_id tid _ (fun x => mergeIdea_id x q now') _ _ _ hE

/-- C2 amended witness on the concrete three-step scenario. -/
theorem listIdeas_order_amended_witness :
    sortedDescIdea (listIdeasRemote cRemote)
    ∧ listIdeasLocal (createIdeaLocal sB (onlyTitle "C") "id-c" 3).2
        = buildIdea (onlyTitle "C") "id-c" 3 :: listIdeasLocal sB
    ∧ (listIdeasLocal (updateIdeaLocal sB "id-a" emptyPayload 2).2).map Idea.id
        = (listIdeasLocal sB).map Idea.id := by
  have h := listIdeas_order_amended cRemote sB (onlyTitle "C") "id-c" "id-a"
    emptyPayload 3 2 { buildIdea (onlyTitle "A") "id-a" 0 with updatedAt := 2 }
  exact ⟨h.1, h.2.1, h.2.2 (by decide)⟩

/-- C3 counterexample: in the local backend, `removeLabel("Growth")`
clears the label of the sample idea (a mutation) yet leaves its
`updatedAt` exactly as before the call. -/
theorem removeLabel_timestamp_counterexample :
    getIdeaLocal cLocal "a1" = some cIdea
    ∧ cIdea.label = "Growth"
    ∧ getIdeaLocal (removeLabelLocal cLocal "Growth").2 "a1"
        = some { cIdea with label := "" }
    ∧ (getIdeaLocal (removeLabelLocal cLocal "Growth").2 "a1").map Idea.updatedAt
        = (getIdeaLocal cLocal "a1").map Idea.updatedAt := by
  refine ⟨by decide, by decide, by decide, by decide⟩

/-- C3 amended: `updateIdea` stamps `updatedAt` with the call's clock in
both backends, and the remote `removeLabel` cascade refreshes `updatedAt`
on every idea it clears; the local `removeLabel` cascade, however, leaves
every idea's `updatedAt` unchanged. -/
theorem updatedAt_refresh_amended (s : LocalState) (r : RemoteState)
    (tid L : String) (p : UpdatePayload) (now : Nat) (m : Idea) (j : DbIdea)
    (hm : (updateIdeaLocal s tid p now).1 = some m)
    (hj : j ∈ r.ideas) (hjl : j.label = L) :
    m.updatedAt = now
    ∧ (∃ q : Idea, getIdeaRemote (removeLabelRemote r L now).2 j.id = some q
        ∧ q.label = "" ∧ q.updatedAt = now)
    ∧ (listIdeasLocal (removeLabelLocal s L).2).map Idea.updatedAt
        = (listIdeasLocal s).map Idea.updatedAt := by
  refine ⟨?_, ?_, ?_⟩
  · cases hE : updateFirst tid (fun i => mergeIdea i p now) (readIdeasFile s) with
    | none =>
      simp only [updateIdeaLocal, hE] at hm
      exact Option.noConfusion hm
    | some pair =>
      obtain ⟨m0, l'⟩ := pair
      simp only [updateIdeaLocal, hE] at hm
      obtain rfl : m0 = m := Option.some.inj hm
      obtain ⟨x, hx, rfl⟩ := updateFirst_result tid _ _ _ _ hE
      exact mergeIdea_updatedAt x p now
  · obtain ⟨row2, hget, hlab, hupd⟩ := removeLabelRemote_getIdea r L now j hj hjl
    exact ⟨dbIdeaToApi row2, hget, hlab, hupd⟩
  · rw [removeLabelLocal_snd]
    simp only [listIdeasLocal, readIdeasFile_write, List.map_map]
    refine List.map_congr_left ?_
    intro x hx
    by_cases h : x.label = L <;> simp [Function.comp, h]

/-- C3 amended witness on the sample stores. -/
theorem updatedAt_refresh_amended_witness :
    ({ cIdea with updatedAt := 5 } : Idea).updatedAt = 5
    ∧ (∃ q : Idea, getIdeaRemote (removeLabelRemote cRemote "Growth" 5).2 "a1" = some q
        ∧ q.label = "" ∧ q.updatedAt = 5)
    ∧ (listIdeasLocal (removeLabelLocal cLocal "Growth").2).map Idea.updatedAt
        = (listIdeasLocal cLocal).map Idea.updatedAt :=
  updatedAt_refresh_amended cLocal cRemote "a1" "Growth" emptyPayload 5
    { cIdea with updatedAt := 5 } (apiIdeaToDb cIdea) (by decide) (by decide) rfl

/-- Sample idea with a dangling label reference (label not in the set). -/
def dIdea : Idea :=
  { id := "d1", title := "D", description := "", status := "new", label := "B",
    tags := [], attachments := [], aiChat := [], createdAt := 0, updatedAt := 0 }

/-- Sample local store with a dangling label reference. -/
def dLocal : LocalState :=
  { ideasDoc := .array [dIdea.toRaw], labelsDoc := .array ["Agent"] }

/-- C9 counterexample: removing a name absent from the label set does
return the unchanged set, but it still clears the label of an idea that
dangles on that name, so an idea's label field is changed by the call. -/
theorem removeLabel_absent_counterexample :
    "B" ∉ readLabelsFile dLocal
    ∧ (removeLabelLocal dLocal "B").1 = readLabelsFile dLocal
    ∧ getIdeaLocal dLocal "d1" = some dIdea
    ∧ getIdeaLocal (removeLabelLocal dLocal "B").2 "d1"
        = some { dIdea with label := "" } := by
  refine ⟨by decide, by decide, by decide, by decide⟩

/-- C9 amended: `removeLabel` on a name not in the label set is not an
error and returns the unchanged set in both backends; and when no idea
dangles on that name the observable ideas are unchanged as well (an idea
whose label does equal the name would still be cleared). -/
theorem removeLabel_absent_amended (s : LocalState) (r : RemoteState)
    (name : String) (now : Nat)
    (hs : name ∉ readLabelsFile s)
    (hsi : ∀ i ∈ readIdeasFile s, i.label ≠ name)
    (hr : name ∉ r.labels)
    (hri : ∀ row ∈ r.ideas, row.label ≠ name) :
    (removeLabelLocal s name).1 = readLabelsFile s
    ∧ listIdeasLocal (removeLabelLocal s name).2 = listIdeasLocal s
    ∧ removeLabelRemote r name now = (listLabelsRemote r, r) := by
  have hfilter : (readLabelsFile s).filter (fun l => l ≠ name) = readLabelsFile s := by
    refine List.filter_eq_self.mpr ?_
    intro x hx
    rw [decide_eq_true_eq]
    intro hEq
    exact hs (hEq ▸ hx)
  refine ⟨?_, ?_, ?_⟩
  · rw [removeLabelLocal_fst, hfilter]
  · rw [removeLabelLocal_snd]
    simp only [listIdeasLocal, readIdeasFile_write]
    have hmap : (readIdeasFile s).map
        (fun i => if i.label = name then { i with label := "" } else i)
        = (readIdeasFile s).map id :=
      List.map_congr_left (fun a ha => by simp [if_neg (hsi a ha)])
    rw [hmap, List.map_id]
  · have hlabels : r.labels.filter (fun l => l ≠ name) = r.labels := by
      refine List.filter_eq_self.mpr ?_
      intro x hx
      rw [decide_eq_true_eq]
      intro hEq
      exact hr (hEq ▸ hx)
    have hr1 : ({ r with labels := r.labels.filter (fun l => l ≠ name) } : RemoteState)
        = r := by
      rw [hlabels]
    have himp : (listIdeasRemote r).filter (fun i => i.label = name) = [] := by
      refine List.filter_eq_nil_iff.mpr ?_
      intro x hx
      obtain ⟨row, hrow, rfl⟩ := List.mem_map.mp hx
      have hrmem : row ∈ r.ideas := mem_sortByUpdatedDesc.mp hrow
      rw [decide_eq_true_eq]
      exact hri row hrmem
    have h2 : (removeLabelRemote r name now).2 = r := by
      rw [removeLabelRemote_snd, hr1, himp]
      rfl
    have h1 : (removeLabelRemote r name now).1 = listLabelsRemote r := by
      rw [removeLabelRemote_fst, h2]
    calc removeLabelRemote r name now
        = ((removeLabelRemote r name now).1, (removeLabelRemote r name now).2) := rfl
      _ = (listLabelsRemote r, r) := by rw [h1, h2]

/-- C9 amended witness: removing an absent name from stores whose ideas do
not reference it. -/
theorem removeLabel_absent_amended_witness :
    (removeLabelLocal cLocal "Zed").1 = readLabelsFile cLocal
    ∧ listIdeasLocal (removeLabelLocal cLocal "Zed").2 = listIdeasLocal cLocal
    ∧ removeLabelRemote cRemote "Zed" 4 = (listLabelsRemote cRemote, cRemote) :=
  removeLabel_absent_amended cLocal cRemote "Zed" 4 (by decide) (by decide)
    (by decide) (by decide)

/-- C10 counterexample: `createIdea` does not trim the title (the HTTP
route does that before calling it): a title with surrounding whitespace is
stored verbatim, even though description and label are trimmed. -/
theorem createIdea_trim_counterexample :
    (createIdeaLocal eLocal
      { title := " Ship ", description := some " d ", status := none,
        label := some " Growth ", tags := none } "u1" 0).1.title = " Ship "
    ∧ " Ship " ≠ jsTrim " Ship "
    ∧ (createIdeaLocal eLocal
        { title := " Ship ", description := some " d ", status := none,
          label := some " Growth ", tags := none } "u1" 0).1.description = "d"
    ∧ (createIdeaLocal eLocal
        { title := " Ship ", description := some " d ", status := none,
          label := some " Growth ", tags := none } "u1" 0).1.label = "Growth" := by
  refine ⟨by decide, by decide, by decide, by decide⟩

/-- C10 amended: `createIdea` trims description and label but stores the
title as given (with a non-empty status stored as given and tags kept when
a sequence), and the created record is read back under its new id;
`updateIdea` trims title, description and label when present and stores
status, tags, attachments and the chat transcript as given. -/
theorem trim_amended (s : LocalState) (i : Idea) (newId : String) (now : Nat)
    (pt : String) (pd pl : Option String) (ps : String) (ptg : Option (List String))
    (hps : ps ≠ "")
    (t d st l : String) (tg att : List String) (ch : List ChatMsg) :
    getIdeaLocal (createIdeaLocal s ⟨pt, pd, some ps, pl, ptg⟩ newId now).2 newId
        = some (buildIdea ⟨pt, pd, some ps, pl, ptg⟩ newId now)
    ∧ (buildIdea ⟨pt, pd, some ps, pl, ptg⟩ newId now).title = pt
    ∧ (buildIdea ⟨pt, pd, some ps, pl, ptg⟩ newId now).description
        = jsTrim (pd.getD "")
    ∧ (buildIdea ⟨pt, pd, some ps, pl, ptg⟩ newId now).label = jsTrim (pl.getD "")
    ∧ (buildIdea ⟨pt, pd, some ps, pl, ptg⟩ newId now).status = ps
    ∧ (buildIdea ⟨pt, pd, some ps, pl, ptg⟩ newId now).tags = ptg.getD []
    ∧ (mergeIdea i ⟨some t, some d, some st, some l, some tg, some att, some ch⟩ now).title
        = jsTrim t
    ∧ (mergeIdea i ⟨some t, some d, some st, some l, some tg, some att, some ch⟩ now).description
        = jsTrim d
    ∧ (mergeIdea i ⟨some t, some d, some st, some l, some tg, some att, some ch⟩ now).status
        = st
    ∧ (mergeIdea i ⟨some t, some d, some st, some l, some tg, some att, some ch⟩ now).label
        = jsTrim l
    ∧ (mergeIdea i ⟨some t, some d, some st, some l, some tg, some att, some ch⟩ now).tags
        = tg
    ∧ (mergeIdea i ⟨some t, some d, some st, some l, some tg, some att, some ch⟩ now).attachments
        = att
    ∧ (mergeIdea i ⟨some t, some d, some st, some l, some tg, some att, some ch⟩ now).aiChat
        = ch := by
  refine ⟨?_, rfl, rfl, rfl, ?_, rfl, rfl, rfl, rfl, rfl, rfl, rfl, rfl⟩
  · simp only [createIdeaLocal, getIdeaLocal, readIdeasFile_write]
    exact List.find?_cons_of_pos _ (by simp [buildIdea])
  · exact if_neg hps

/-- C10 amended witness at concrete payloads. -/
theorem trim_amended_witness :
    getIdeaLocal (createIdeaLocal eLocal
        ⟨" Ship ", some " d ", some "live", some " Growth ", some ["x"]⟩ "u1" 0).2 "u1"
        = some (buildIdea ⟨" Ship ", some " d ", some "live", some " Growth ", some ["x"]⟩ "u1" 0)
    ∧ (buildIdea ⟨" Ship ", some " d ", some "live", some " Growth ", some ["x"]⟩ "u1" 0).title
        = " Ship "
    ∧ (buildIdea ⟨" Ship ", some " d ", some "live", some " Growth ", some ["x"]⟩ "u1" 0).description
        = jsTrim ((some " d " : Option String).getD "")
    ∧ (buildIdea ⟨" Ship ", some " d ", some "live", some " Growth ", some ["x"]⟩ "u1" 0).label
        = jsTrim ((some " Growth " : Option String).getD "")
    ∧ (buildIdea ⟨" Ship ", some " d ", some "live", some " Growth ", some ["x"]⟩ "u1" 0).status
        = "live"
    ∧ (buildIdea ⟨" Ship ", some " d ", some "live", some " Growth ", some ["x"]⟩ "u1" 0).tags
        = (some ["x"] : Option (List String)).getD []
    ∧ (mergeIdea cIdea ⟨some " T2 ", some " d2 ", some "", some " L ", some ["y"], some ["f.png"], some []⟩ 6).title
        = jsTrim " T2 "
    ∧ (mergeIdea cIdea ⟨some " T2 ", some " d2 ", some "", some " L ", some ["y"], some ["f.png"], some []⟩ 6).description
        = jsTrim " d2 "
    ∧ (mergeIdea cIdea ⟨some " T2 ", some " d2 ", some "", some " L ", some ["y"], some ["f.png"], some []⟩ 6).status
        = ""
    ∧ (mergeIdea cIdea ⟨some " T2 ", some " d2 ", some "", some " L ", some ["y"], some ["f.png"], some []⟩ 6).label
        = jsTrim " L "
    ∧ (mergeIdea cIdea ⟨some " T2 ", some " d2 ", some "", some " L ", some ["y"], some ["f.png"], some []⟩ 6).tags
        = ["y"]
    ∧ (mergeIdea cIdea ⟨some " T2 ", some " d2 ", some "", some " L ", some ["y"], some ["f.png"], some []⟩ 6).attachments
        = ["f.png"]
    ∧ (mergeIdea cIdea ⟨some " T2 ", some " d2 ", some "", some " L ", some ["y"], some ["f.png"], some []⟩ 6).aiChat
        = [] :=
  trim_amended eLocal cIdea "u1" 0 " Ship " (some " d ") (some " Growth ") "live"
    (some ["x"]) (by decide) " T2 " " d2 " "" " L " ["y"] ["f.png"] []
